import Mathlib

/-!
# Verification of the tiff encoder core (compression strategies, value codec, offset policy)

Shallow embedding of the encoder core of the `image-tiff` encoding crate:

* `src/encoder/compression/packbits.rs` — `PackbitsCompressor::write_to`,
  the single-pass greedy PackBits (run-length) packer, embedded as an
  explicit state machine (`PbState`, `pbStep`, `pbLoop`, `pbFinish`);
* `src/encoder/compression.rs` — `NoneCompressor::write_to`,
  `LZWCompressor::write_to`, `DeflateCompressor::write_to` (the external
  weezl/flate2 coders are abstracted as parameters holding their output);
* `src/encoder/tiff_value.rs` — the `TiffValue` impls (byte widths, counts
  and byte serialization of scalars, arrays and ASCII strings);
* the offset policy `TiffKind::convert_offset` (not among the provided
  sources; modelled from the spec).

Bytes are modelled as `Nat` (values < 256); `u8`/`usize` counters are `Nat`
with the wrapping/underflow points handled exactly where the Rust code
guarantees they cannot occur (proved below as the safety invariant).
The seekable sink is modelled by its write position: a `write_to` call that
starts at position `pos0` appends a list of bytes and each `write_data`
call returns the position at which its first byte lands.
-/

set_option maxRecDepth 100000

namespace Tiff

/-- `bytes[a .. a + n)`, the slice `&bytes[a..a+n]` of a byte buffer. -/
def slice (l : List Nat) (a n : Nat) : List Nat := (l.drop a).take n

/-- `encode_diff` from `packbits.rs`: header byte of a literal chunk of `n` bytes. -/
def encodeDiff (n : Nat) : Nat := n - 1

/-- `encode_rept` from `packbits.rs`: header byte of a run chunk of `n` repeats,
`256 - (n - 1)` computed in `u16` and truncated to `u8`. -/
def encodeRept (n : Nat) : Nat := (256 - (n - 1)) % 256

/-- The local mutable state of `PackbitsCompressor::write_to` between loop
iterations, plus the write effects performed so far (`out` is the byte
sequence appended to the sink, `bytesWritten` mirrors the `bytes_written`
counter, `offset` mirrors the `Option<u64>` first-write offset). -/
structure PbState where
  srcIndex : Nat
  pendingIndex : Nat
  bytesPending : Nat
  runIndex : Nat
  inRun : Bool
  lastByte : Nat
  out : List Nat
  bytesWritten : Nat
  offset : Option Nat
deriving Repr, DecidableEq

/-- `offset.get_or_insert(encoder.write_data(..))`: the recorded first-write
offset; a `write_data` at this point starts at sink position
`pos0 + s.out.length`. -/
def recOffset (pos0 : Nat) (s : PbState) : Option Nat :=
  match s.offset with
  | some p => some p
  | none => some (pos0 + s.out.length)

/-- One iteration of the `while src_count - 1 != 0` loop of
`PackbitsCompressor::write_to` (`packbits.rs` lines 68–116), processing the
byte `c = bytes[src_index]`. -/
def pbStep (pos0 : Nat) (bytes : List Nat) (s : PbState) (c : Nat) : PbState :=
  let srcIndex := s.srcIndex + 1
  let bytesPending := s.bytesPending + 1
  if s.inRun then
    if c ≠ s.lastByte ∨ bytesPending > 128 then
      { srcIndex := srcIndex, pendingIndex := srcIndex - 1, bytesPending := 1, runIndex := 0,
        inRun := false, lastByte := c,
        out := s.out ++ [encodeRept (bytesPending - 1), s.lastByte],
        bytesWritten := s.bytesWritten + 2,
        offset := recOffset pos0 s }
    else
      { s with srcIndex := srcIndex, bytesPending := bytesPending, lastByte := c }
  else
    if bytesPending > 128 then
      { srcIndex := srcIndex, pendingIndex := s.pendingIndex + 128,
        bytesPending := bytesPending - 128,
        runIndex := bytesPending - 128 - 1,
        inRun := false, lastByte := c,
        out := s.out ++ encodeDiff 128 :: slice bytes s.pendingIndex 128,
        bytesWritten := s.bytesWritten + (1 + 128),
        offset := recOffset pos0 s }
    else if c = s.lastByte then
      if bytesPending - s.runIndex ≥ 3 ∨ s.runIndex = 0 then
        if s.runIndex ≠ 0 then
          { srcIndex := srcIndex, pendingIndex := s.pendingIndex,
            bytesPending := bytesPending - s.runIndex,
            runIndex := s.runIndex, inRun := true, lastByte := c,
            out := s.out ++ encodeDiff s.runIndex :: slice bytes s.pendingIndex s.runIndex,
            bytesWritten := s.bytesWritten + (1 + s.runIndex),
            offset := recOffset pos0 s }
        else
          { s with
              srcIndex := srcIndex, bytesPending := bytesPending - s.runIndex,
              inRun := true, lastByte := c }
      else
        { s with srcIndex := srcIndex, bytesPending := bytesPending, lastByte := c }
    else
      { s with
          srcIndex := srcIndex, bytesPending := bytesPending,
          runIndex := bytesPending - 1, lastByte := c }

/-- The whole loop of `PackbitsCompressor::write_to`, iterated over the bytes
after the priming byte. -/
def pbLoop (pos0 : Nat) (bytes : List Nat) : PbState → List Nat → PbState
  | s, [] => s
  | s, c :: rest => pbLoop pos0 bytes (pbStep pos0 bytes s c) rest

/-- The "Output the remainder" epilogue of `PackbitsCompressor::write_to`
(`packbits.rs` lines 118–127). -/
def pbFinish (pos0 : Nat) (bytes : List Nat) (s : PbState) : PbState :=
  if s.inRun then
    { s with
        out := s.out ++ [encodeRept s.bytesPending, s.lastByte],
        bytesWritten := s.bytesWritten + 2, offset := recOffset pos0 s }
  else
    { s with
      out := s.out ++ encodeDiff s.bytesPending :: slice bytes s.pendingIndex s.bytesPending,
      bytesWritten := s.bytesWritten + (1 + s.bytesPending),
      offset := recOffset pos0 s }

/-- The state of `PackbitsCompressor::write_to` right after "Prime compressor
with first character." (`packbits.rs` lines 63–66). -/
def pbInit (b0 : Nat) : PbState :=
  { srcIndex := 1, pendingIndex := 0, bytesPending := 1, runIndex := 0,
    inRun := false, lastByte := b0, out := [], bytesWritten := 0, offset := none }

/-- What one `Compressor::write_to` call produces: the returned
`absolute_file_offset` and `stored_byte_count`, together with the byte
sequence it appended to the sink. -/
structure WriteResult where
  offset : Nat
  count : Nat
  appended : List Nat
deriving Repr, DecidableEq

instance : DecidableEq (Except Unit WriteResult) := fun a b =>
  match a, b with
  | .error u, .error v => isTrue (by cases u; cases v; rfl)
  | .ok x, .ok y =>
    if h : x = y then isTrue (by rw [h]) else isFalse (by intro hc; cases hc; exact h rfl)
  | .error _, .ok _ => isFalse (by intro h; cases h)
  | .ok _, .error _ => isFalse (by intro h; cases h)

/-- `PackbitsCompressor::write_to` from `packbits.rs`: errors
(`TiffError::CompressionError`) on empty input, otherwise runs the packer
and returns the first-write offset and the `bytes_written` counter.
`pos0` is the sink's write position at the start of the call. -/
def packbitsWriteTo (pos0 : Nat) (bytes : List Nat) : Except Unit WriteResult :=
  match bytes with
  | [] => .error ()
  | b0 :: rest =>
    let s := pbFinish pos0 bytes (pbLoop pos0 bytes (pbInit b0) rest)
    match s.offset with
    | none => .error ()
    | some p => .ok ⟨p, s.bytesWritten, s.out⟩

/-- The PackBits reference decoder for the chunk format of spec §4.3: a
header byte `h ≤ 127` starts a literal chunk of `h + 1` verbatim bytes; a
header `h ∈ [129, 255]` starts a run chunk, one byte repeated `257 - h`
times. (The no-op header 128 is never produced by the encoder and is
rejected.) The `fuel` argument only forces termination; `packbitsDecode`
below instantiates it so that it never runs out on the chunks consumed. -/
def pbDecodeFuel : Nat → List Nat → Option (List Nat)
  | _, [] => some []
  | 0, _ :: _ => none
  | fuel + 1, h :: rest =>
    if h ≤ 127 then
      if h + 1 ≤ rest.length then
        (pbDecodeFuel fuel (rest.drop (h + 1))).map (fun t => rest.take (h + 1) ++ t)
      else none
    else if 129 ≤ h ∧ h ≤ 255 then
      match rest with
      | [] => none
      | b :: rest2 => (pbDecodeFuel fuel rest2).map (fun t => List.replicate (257 - h) b ++ t)
    else none

/-- The reference decoder on a whole stream: every chunk consumes at least
one byte, so the stream length bounds the recursion. -/
def packbitsDecode (l : List Nat) : Option (List Nat) := pbDecodeFuel l.length l

/-- Native-endian byte serialization of an unsigned value stored in `width`
bytes (little-endian, the native order targeted by the `*_as_ne_bytes` /
`to_ne_bytes` calls of `tiff_value.rs`). -/
def serializeNat (width v : Nat) : List Nat :=
  (List.range width).map fun i => v / 256 ^ i % 256

/-- Native-endian byte serialization of a signed value stored in `width`
bytes (two's complement, as `to_ne_bytes` on the signed integer types). -/
def serializeInt (width : Nat) (v : Int) : List Nat :=
  serializeNat width (v % (2 ^ (8 * width) : Nat)).toNat

/-- `NoneCompressor::write_to` from `compression.rs`: the returned
`byte_count` is `value.len()` (the **element** count of the
`&[T::Inner]` slice), while `encoder.write_data(value)` appends the
value's byte serialization, `byteLen` bytes per element. The elements of
`value` are modelled by their numeric value; `byteLen` is the
`TiffValue::BYTE_LEN` of the element type `T::Inner`. -/
def noneWriteTo (byteLen pos0 : Nat) (value : List Nat) : WriteResult :=
  ⟨pos0, value.length, value.flatMap (serializeNat byteLen)⟩

/-- `LZWCompressor::write_to` from `compression.rs`: the external weezl coder
appends its output to the (empty, cleared-after-use) scratch buffer and
reports `consumed_out`; the buffer is then written to the sink in one
`write_data` call. `lzwOut` abstracts the opaque coder outcome on the call's
input (its error case is the opaque-wrapped `UnderlyingCodecFailure`). -/
def lzwWriteTo (lzwOut : Except Unit (List Nat)) (pos0 : Nat) (data : List Nat) :
    Except Unit WriteResult :=
  match lzwOut with
  | .error e => .error e
  | .ok buf => .ok ⟨pos0, buf.length, buf⟩

/-- `DeflateCompressor::write_to` from `compression.rs` / `deflate.rs`: the
external `ZlibEncoder` writes the finalized zlib stream for `data` into the
(empty) scratch buffer, the byte count is the buffer length, and the buffer
is written to the sink in one `write_data` call. `zlibOut` abstracts the
opaque codec outcome. There is no empty-input check. -/
def deflateWriteTo (zlibOut : Except Unit (List Nat)) (pos0 : Nat) (data : List Nat) :
    Except Unit WriteResult :=
  match zlibOut with
  | .error e => .error e
  | .ok buf => .ok ⟨pos0, buf.length, buf⟩

/-- The validity check of `impl TiffValue for str` (`tiff_value.rs` lines
590/600): `self.is_ascii() && !self.bytes().any(|b| b == 0)`. The string is
modelled by its UTF-8 byte sequence; `is_ascii()` holds exactly when every
byte is `< 128`. -/
def strValid (s : List Nat) : Bool :=
  s.all (fun b => decide (b < 128)) && !(s.any (fun b => decide (b = 0)))

/-- `<str as TiffValue>::count` (`tiff_value.rs` line 586): `self.len() + 1`. -/
def strCount (s : List Nat) : Nat := s.length + 1

/-- `<str as TiffValue>::write` (`tiff_value.rs` lines 589–597): on a valid
string, write the bytes and one terminating zero; otherwise fail with
`TiffError::FormatError(TiffFormatError::InvalidTag)`. The result is the
byte sequence pushed into the writer. -/
def strWrite (s : List Nat) : Except Unit (List Nat) :=
  if strValid s then .ok (s ++ [0]) else .error ()

/-- `<str as TiffValue>::serialize` (`tiff_value.rs` lines 599–606): the
same bytes, or `vec![]` for an invalid string. -/
def strSerialize (s : List Nat) : List Nat :=
  if strValid s then s ++ [0] else []

/-- `Type` tags assigned by the `TiffValue` impls of `tiff_value.rs`. -/
inductive FieldType where
  | byte | sbyte | short | sshort | long | slong | long8 | slong8
  | float | double | ifd | ifd8 | rational | srational | ascii
deriving Repr, DecidableEq

/-- A native value or homogeneous array destined for the directory; one
constructor per `TiffValue` impl of `tiff_value.rs` (the scalar impls
serialize exactly like their one-element array forms, so scalars are the
singleton lists). Unsigned values, IFD references and float bit patterns
are `Nat`; signed values are `Int`; rationals are numerator/denominator
pairs; the ASCII string is its UTF-8 byte sequence. -/
inductive TiffVal where
  | bytesV (vs : List Nat)
  | sbytesV (vs : List Int)
  | shortsV (vs : List Nat)
  | sshortsV (vs : List Int)
  | longsV (vs : List Nat)
  | slongsV (vs : List Int)
  | long8sV (vs : List Nat)
  | slong8sV (vs : List Int)
  | floatsV (vs : List Nat)
  | doublesV (vs : List Nat)
  | ifdsV (vs : List Nat)
  | ifd8sV (vs : List Nat)
  | rationalsV (vs : List (Nat × Nat))
  | srationalsV (vs : List (Int × Int))
  | asciiV (s : List Nat)
deriving Repr, DecidableEq

/-- `TiffValue::BYTE_LEN` per impl of `tiff_value.rs`. -/
def TiffVal.byteLen : TiffVal → Nat
  | bytesV _ => 1
  | sbytesV _ => 1
  | shortsV _ => 2
  | sshortsV _ => 2
  | longsV _ => 4
  | slongsV _ => 4
  | long8sV _ => 8
  | slong8sV _ => 8
  | floatsV _ => 4
  | doublesV _ => 8
  | ifdsV _ => 4
  | ifd8sV _ => 8
  | rationalsV _ => 8
  | srationalsV _ => 8
  | asciiV _ => 1

/-- `TiffValue::FIELD_TYPE` per impl of `tiff_value.rs`. -/
def TiffVal.fieldType : TiffVal → FieldType
  | bytesV _ => .byte
  | sbytesV _ => .sbyte
  | shortsV _ => .short
  | sshortsV _ => .sshort
  | longsV _ => .long
  | slongsV _ => .slong
  | long8sV _ => .long8
  | slong8sV _ => .slong8
  | floatsV _ => .float
  | doublesV _ => .double
  | ifdsV _ => .ifd
  | ifd8sV _ => .ifd8
  | rationalsV _ => .rational
  | srationalsV _ => .srational
  | asciiV _ => .ascii

/-- `TiffValue::count` per impl of `tiff_value.rs`: the element count (array
length; `1` for a scalar, i.e. a singleton here; string length + 1 for the
terminating NUL of ASCII strings). -/
def TiffVal.count : TiffVal → Nat
  | bytesV vs => vs.length
  | sbytesV vs => vs.length
  | shortsV vs => vs.length
  | sshortsV vs => vs.length
  | longsV vs => vs.length
  | slongsV vs => vs.length
  | long8sV vs => vs.length
  | slong8sV vs => vs.length
  | floatsV vs => vs.length
  | doublesV vs => vs.length
  | ifdsV vs => vs.length
  | ifd8sV vs => vs.length
  | rationalsV vs => vs.length
  | srationalsV vs => vs.length
  | asciiV s => strCount s

/-- `TiffValue::serialize` per impl of `tiff_value.rs`: `[u8]` is copied
verbatim, the other numeric types go through their native-endian fixed-width
byte encodings (`*_as_ne_bytes` / `to_ne_bytes`), rationals write the
numerator then the denominator as two 32-bit fields, strings append the
terminating zero byte. -/
def TiffVal.serialize : TiffVal → List Nat
  | bytesV vs => vs
  | sbytesV vs => vs.flatMap (serializeInt 1)
  | shortsV vs => vs.flatMap (serializeNat 2)
  | sshortsV vs => vs.flatMap (serializeInt 2)
  | longsV vs => vs.flatMap (serializeNat 4)
  | slongsV vs => vs.flatMap (serializeInt 4)
  | long8sV vs => vs.flatMap (serializeNat 8)
  | slong8sV vs => vs.flatMap (serializeInt 8)
  | floatsV vs => vs.flatMap (serializeNat 4)
  | doublesV vs => vs.flatMap (serializeNat 8)
  | ifdsV vs => vs.flatMap (serializeNat 4)
  | ifd8sV vs => vs.flatMap (serializeNat 8)
  | rationalsV vs => vs.flatMap (fun p => serializeNat 4 p.1 ++ serializeNat 4 p.2)
  | srationalsV vs => vs.flatMap (fun p => serializeInt 4 p.1 ++ serializeInt 4 p.2)
  | asciiV s => strSerialize s

/-- The validity precondition of a value: only ASCII strings have one (the
`is_ascii`/no-NUL check); every other type always serializes. -/
def TiffVal.valid : TiffVal → Prop
  | asciiV s => strValid s = true
  | _ => True

/-- The container's offset width variant (classic 32-bit vs BigTIFF 64-bit
`TiffKind`). -/
inductive OffsetWidth where
  | bits32
  | bits64
deriving Repr, DecidableEq

/-- `u32::MAX`. -/
def u32Max : Nat := 4294967295

/-- Modelled from the spec: `TiffKind::convert_offset` (spec §4.6 offset
policy), whose definition lives outside the provided sources (only its call
sites in `packbits.rs`/`compression.rs` are given). Per the spec it converts
a `u64` byte position to the container's native offset width, "fails with a
'value out of range' condition when `candidate > u32::MAX`" for the 32-bit
variant, always succeeds for the 64-bit variant, and never silently
truncates. -/
def convertOffset : OffsetWidth → Nat → Option Nat
  | .bits32, c => if c > u32Max then none else some c
  | .bits64, c => some c

/-- `TEST_DATA` from `compression/mod.rs`: the bytes of the 61-byte ASCII
text "This is a string for checking various compression algorithms.". -/
def TEST_DATA : List Nat :=
  [84, 104, 105, 115, 32, 105, 115, 32, 97, 32, 115, 116, 114, 105, 110,
   103, 32, 102, 111, 114, 32, 99, 104, 101, 99, 107, 105, 110, 103, 32,
   118, 97, 114, 105, 111, 117, 115, 32, 99, 111, 109, 112, 114, 101, 115,
   115, 105, 111, 110, 32, 97, 108, 103, 111, 114, 105, 116, 104, 109, 115,
   46]

/-! ## Basic slice lemmas -/

theorem slice_length (l : List Nat) (a n : Nat) (h : a + n ≤ l.length) :
    (slice l a n).length = n := by
  simp only [slice, List.length_take, List.length_drop]
  omega

theorem slice_one (l : List Nat) (a c : Nat) (r : List Nat) (h : l.drop a = c :: r) :
    slice l a 1 = [c] := by
  simp [slice, h]

theorem slice_snoc (l : List Nat) (a k c : Nat) (r : List Nat)
    (h : l.drop (a + k) = c :: r) : slice l a (k + 1) = slice l a k ++ [c] := by
  unfold slice
  rw [List.take_add, List.drop_drop, h]
  rfl

theorem take_add_slice (l : List Nat) (a k : Nat) :
    l.take (a + k) = l.take a ++ slice l a k := by
  rw [List.take_add]
  rfl

theorem drop_cons_length {l : List Nat} {a c : Nat} {r : List Nat}
    (h : l.drop a = c :: r) : a < l.length := by
  have := congrArg List.length h
  simp only [List.length_drop, List.length_cons] at this
  omega

/-! ## The reference decoder: fuel irrelevance and chunk equations -/

theorem pbDecodeFuel_mono : ∀ (f g : Nat) (l : List Nat), l.length ≤ f → l.length ≤ g →
    pbDecodeFuel f l = pbDecodeFuel g l := by
  intro f
  induction f with
  | zero =>
    intro g l hf _
    have : l = [] := List.length_eq_zero.mp (Nat.le_zero.mp hf)
    subst this
    cases g <;> rfl
  | succ f ih =>
    intro g l hf hg
    cases l with
    | nil => cases g <;> rfl
    | cons h rest =>
      cases g with
      | zero => simp at hg
      | succ g' =>
        simp only [List.length_cons] at hf hg
        simp only [pbDecodeFuel]
        by_cases h1 : h ≤ 127
        · simp only [if_pos h1]
          by_cases h2 : h + 1 ≤ rest.length
          · simp only [if_pos h2]
            rw [ih g' (rest.drop (h + 1)) (by simp only [List.length_drop]; omega)
                  (by simp only [List.length_drop]; omega)]
          · simp only [if_neg h2]
        · simp only [if_neg h1]
          by_cases h3 : 129 ≤ h ∧ h ≤ 255
          · simp only [if_pos h3]
            cases rest with
            | nil => rfl
            | cons b rest2 =>
              simp only [List.length_cons] at hf hg
              show Option.map (fun t => List.replicate (257 - h) b ++ t) (pbDecodeFuel f rest2)
                = Option.map (fun t => List.replicate (257 - h) b ++ t) (pbDecodeFuel g' rest2)
              rw [ih g' rest2 (by omega) (by omega)]
          · simp only [if_neg h3]

theorem packbitsDecode_cons_lit (pl rest : List Nat)
    (h1 : 1 ≤ pl.length) (h2 : pl.length ≤ 128) :
    packbitsDecode ((pl.length - 1) :: (pl ++ rest))
      = (packbitsDecode rest).map (fun t => pl ++ t) := by
  show pbDecodeFuel ((pl.length - 1) :: (pl ++ rest)).length _ = _
  have hlen : ((pl.length - 1) :: (pl ++ rest)).length = (pl.length + rest.length) + 1 := by
    simp
  rw [hlen]
  simp only [pbDecodeFuel]
  rw [if_pos (by omega : pl.length - 1 ≤ 127),
      if_pos (by simp only [List.length_append]; omega : pl.length - 1 + 1 ≤ (pl ++ rest).length)]
  have e : pl.length - 1 + 1 = pl.length := by omega
  rw [e, List.drop_left, List.take_left,
      pbDecodeFuel_mono (pl.length + rest.length) rest.length rest (by omega) le_rfl]
  rfl

theorem packbitsDecode_cons_run (n b : Nat) (rest : List Nat)
    (h1 : 2 ≤ n) (h2 : n ≤ 128) :
    packbitsDecode ((257 - n) :: b :: rest)
      = (packbitsDecode rest).map (fun t => List.replicate n b ++ t) := by
  show pbDecodeFuel ((257 - n) :: b :: rest).length _ = _
  have hlen : ((257 - n) :: b :: rest).length = (rest.length + 1) + 1 := by simp
  rw [hlen]
  simp only [pbDecodeFuel]
  rw [if_neg (by omega : ¬(257 - n ≤ 127)), if_pos (by omega : 129 ≤ 257 - n ∧ 257 - n ≤ 255)]
  have e : 257 - (257 - n) = n := by omega
  rw [e, pbDecodeFuel_mono (rest.length + 1) rest.length rest (by omega) le_rfl]
  rfl

/-- `DecStep out v`: prepending the already-emitted stream `out` to any
decodable continuation prepends `v` to its decoded value. This is how a
flushed prefix of the encoder composes with whatever it emits later. -/
def DecStep (out v : List Nat) : Prop :=
  ∀ rest w, packbitsDecode rest = some w → packbitsDecode (out ++ rest) = some (v ++ w)

theorem decStep_nil : DecStep [] [] := by
  intro rest w h
  simpa using h

theorem decStep_comp {o1 v1 o2 v2 : List Nat} (hA : DecStep o1 v1) (hB : DecStep o2 v2) :
    DecStep (o1 ++ o2) (v1 ++ v2) := by
  intro rest w h
  rw [List.append_assoc]
  have := hA (o2 ++ rest) (v2 ++ w) (hB rest w h)
  simpa [List.append_assoc] using this

theorem decStep_lit (pl : List Nat) (h1 : 1 ≤ pl.length) (h2 : pl.length ≤ 128) :
    DecStep (encodeDiff pl.length :: pl) pl := by
  intro rest w h
  show packbitsDecode ((pl.length - 1) :: (pl ++ rest)) = some (pl ++ w)
  rw [packbitsDecode_cons_lit pl rest h1 h2, h]
  rfl

theorem encodeRept_eq (n : Nat) (h1 : 2 ≤ n) (h2 : n ≤ 128) : encodeRept n = 257 - n := by
  unfold encodeRept
  have e1 : 256 - (n - 1) = 257 - n := by omega
  rw [e1, Nat.mod_eq_of_lt (by omega)]

theorem decStep_run (n b : Nat) (h1 : 2 ≤ n) (h2 : n ≤ 128) :
    DecStep [encodeRept n, b] (List.replicate n b) := by
  intro rest w h
  show packbitsDecode (encodeRept n :: b :: rest) = some (List.replicate n b ++ w)
  rw [encodeRept_eq n h1 h2, packbitsDecode_cons_run n b rest h1 h2, h]
  rfl

/-! ## Well-formed chunk streams (spec §4.3 and §8 "Chunk bounds") -/

/-- A byte stream that is a sequence of self-delimiting PackBits chunks in
which every literal chunk carries 1..=128 bytes and every run chunk encodes
a run of 2..=128 repeats — in particular no zero-length chunk occurs. -/
inductive ChunksWF : List Nat → Prop where
  | nil : ChunksWF []
  | lit (pl rest : List Nat) (h1 : 1 ≤ pl.length) (h2 : pl.length ≤ 128)
      (h : ChunksWF rest) : ChunksWF (encodeDiff pl.length :: (pl ++ rest))
  | run (n b : Nat) (rest : List Nat) (h1 : 2 ≤ n) (h2 : n ≤ 128)
      (h : ChunksWF rest) : ChunksWF (encodeRept n :: b :: rest)

theorem ChunksWF.append {xs ys : List Nat} (hx : ChunksWF xs) (hy : ChunksWF ys) :
    ChunksWF (xs ++ ys) := by
  induction hx with
  | nil => simpa using hy
  | lit pl rest h1 h2 _ ih =>
    have := ChunksWF.lit pl (rest ++ ys) h1 h2 ih
    simpa [List.append_assoc] using this
  | run n b rest h1 h2 _ ih =>
    exact ChunksWF.run n b (rest ++ ys) h1 h2 ih

theorem chunksWF_lit_single (pl : List Nat) (h1 : 1 ≤ pl.length) (h2 : pl.length ≤ 128) :
    ChunksWF (encodeDiff pl.length :: pl) := by
  have := ChunksWF.lit pl [] h1 h2 ChunksWF.nil
  simpa using this

theorem chunksWF_run_single (n b : Nat) (h1 : 2 ≤ n) (h2 : n ≤ 128) :
    ChunksWF [encodeRept n, b] :=
  ChunksWF.run n b [] h1 h2 ChunksWF.nil

/-! ## The loop invariant of the PackBits encoder -/

/-- The effective start of the pending window. While inside a run the
`pending_index` variable is stale (the literal prefix before the run was
already flushed but `pending_index` was not advanced — the run flush never
reads it before overwriting it), and the run's bytes occupy
`pendingIndex + runIndex ..`. -/
def winStart (s : PbState) : Nat :=
  if s.inRun then s.pendingIndex + s.runIndex else s.pendingIndex

/-- The invariant of `PackbitsCompressor::write_to` at every loop-iteration
boundary: window accounting, the window contents (a run window is constant;
the candidate-run suffix of a literal window is constant), and the emitted
stream `out` decoding precisely to the flushed prefix of the input. -/
structure PbInv (pos0 : Nat) (bytes : List Nat) (s : PbState) : Prop where
  hwin : winStart s + s.bytesPending = s.srcIndex
  hsrc : s.srcIndex ≤ bytes.length
  hbp : 1 ≤ s.bytesPending
  hrun : s.inRun = true →
    2 ≤ s.bytesPending ∧ s.bytesPending ≤ 128 ∧
    slice bytes (winStart s) s.bytesPending = List.replicate s.bytesPending s.lastByte
  hlit : s.inRun = false →
    s.bytesPending ≤ 128 ∧ s.runIndex < s.bytesPending ∧
    slice bytes (s.pendingIndex + s.runIndex) (s.bytesPending - s.runIndex)
      = List.replicate (s.bytesPending - s.runIndex) s.lastByte
  hdec : DecStep s.out (bytes.take (winStart s))
  hwf : ChunksWF s.out
  hcnt : s.bytesWritten = s.out.length
  hoffs : ∀ p, s.offset = some p → p = pos0
  hoffn : s.offset = none → s.out = []

theorem recOffset_spec (pos0 : Nat) (s : PbState)
    (hoffs : ∀ p, s.offset = some p → p = pos0) (hoffn : s.offset = none → s.out = []) :
    ∀ p, recOffset pos0 s = some p → p = pos0 := by
  intro p hp
  unfold recOffset at hp
  cases ho : s.offset with
  | some q =>
    rw [ho] at hp
    simp only [Option.some.injEq] at hp
    exact hp ▸ hoffs q ho
  | none =>
    rw [ho] at hp
    simp only [Option.some.injEq] at hp
    simp [← hp, hoffn ho]

theorem recOffset_ne_none (pos0 : Nat) (s : PbState) : recOffset pos0 s ≠ none := by
  unfold recOffset
  cases s.offset <;> simp

theorem pbInit_inv (pos0 b0 : Nat) (rest : List Nat) :
    PbInv pos0 (b0 :: rest) (pbInit b0) := by
  refine ⟨?_, ?_, ?_, ?_, ?_, ?_, ?_, ?_, ?_, ?_⟩
  · simp [pbInit, winStart]
  · simp [pbInit]
  · simp [pbInit]
  · intro h
    simp [pbInit] at h
  · intro _
    refine ⟨by simp [pbInit], by simp [pbInit], ?_⟩
    simp [pbInit, slice, List.replicate]
  · simpa [pbInit, winStart] using decStep_nil
  · exact ChunksWF.nil
  · rfl
  · intro p hp
    simp [pbInit] at hp
  · intro _
    rfl

/-- One loop iteration preserves the invariant and advances `src_index`. -/
theorem pbStep_inv (pos0 : Nat) (bytes : List Nat) (s : PbState) (c : Nat) (r' : List Nat)
    (hI : PbInv pos0 bytes s) (hdrop : bytes.drop s.srcIndex = c :: r') :
    PbInv pos0 bytes (pbStep pos0 bytes s c) ∧
      (pbStep pos0 bytes s c).srcIndex = s.srcIndex + 1 := by
  have hsl : s.srcIndex < bytes.length := drop_cons_length hdrop
  obtain ⟨hwin, hsrc, hbp, hrun, hlit, hdec, hwf, hcnt, hoffs, hoffn⟩ := hI
  cases hR : s.inRun with
  | true =>
    obtain ⟨hbp2, hbp128, hwrep⟩ := hrun hR
    have hws : winStart s = s.pendingIndex + s.runIndex := by simp [winStart, hR]
    rw [hws] at hwin hdec hwrep
    by_cases hc : c ≠ s.lastByte ∨ s.bytesPending + 1 > 128
    · -- the run closes and is flushed as a run chunk
      have hstep : pbStep pos0 bytes s c =
          { srcIndex := s.srcIndex + 1, pendingIndex := s.srcIndex,
            bytesPending := 1, runIndex := 0, inRun := false, lastByte := c,
            out := s.out ++ [encodeRept s.bytesPending, s.lastByte],
            bytesWritten := s.bytesWritten + 2,
            offset := recOffset pos0 s } := by
        simp [pbStep, hR, hc]
      rw [hstep]
      refine ⟨⟨?_, ?_, ?_, ?_, ?_, ?_, ?_, ?_, ?_, ?_⟩, rfl⟩
      · simp [winStart]
      · dsimp only
        omega
      · exact le_rfl
      · intro h
        simp at h
      · intro _
        dsimp only
        refine ⟨by omega, by omega, ?_⟩
        simp only [Nat.add_zero, Nat.sub_zero]
        rw [slice_one bytes s.srcIndex c r' hdrop]
        rfl
      · have hcomp := decStep_comp hdec (decStep_run s.bytesPending s.lastByte hbp2 hbp128)
        rw [← hwrep, ← take_add_slice, hwin] at hcomp
        simpa [winStart] using hcomp
      · exact hwf.append (chunksWF_run_single s.bytesPending s.lastByte hbp2 hbp128)
      · simp [hcnt]
      · exact recOffset_spec pos0 s hoffs hoffn
      · intro h
        exact absurd h (recOffset_ne_none pos0 s)
    · -- the run continues
      have hstep : pbStep pos0 bytes s c =
          { s with srcIndex := s.srcIndex + 1, bytesPending := s.bytesPending + 1,
                   lastByte := c } := by
        simp only [pbStep, hR]
        rw [if_true, if_neg hc]
      push_neg at hc
      obtain ⟨hceq, hble⟩ := hc
      rw [hstep]
      refine ⟨⟨?_, ?_, ?_, ?_, ?_, ?_, ?_, ?_, ?_, ?_⟩, rfl⟩
      · simp only [winStart]
        simp [hR]
        omega
      · dsimp only
        omega
      · dsimp only
        omega
      · intro _
        dsimp only
        refine ⟨by omega, by omega, ?_⟩
        have hext := slice_snoc bytes (s.pendingIndex + s.runIndex) s.bytesPending c r'
          (by rw [hwin]; exact hdrop)
        simp only [winStart]
        simp [hR]
        rw [hext, hwrep, hceq, List.replicate_succ']
      · intro h
        simp [hR] at h
      · simpa [winStart, hR] using hdec
      · exact hwf
      · exact hcnt
      · exact hoffs
      · exact hoffn
  | false =>
    obtain ⟨hbp128, hrib, hcand⟩ := hlit hR
    have hws : winStart s = s.pendingIndex := by simp [winStart, hR]
    rw [hws] at hwin hdec
    by_cases hbig : s.bytesPending + 1 > 128
    · -- literal window full: flush MAX_BYTES literal bytes
      have hbpe : s.bytesPending = 128 := by omega
      have hpe : s.pendingIndex + 128 = s.srcIndex := by omega
      have hstep : pbStep pos0 bytes s c =
          { srcIndex := s.srcIndex + 1, pendingIndex := s.pendingIndex + 128,
            bytesPending := s.bytesPending + 1 - 128,
            runIndex := s.bytesPending + 1 - 128 - 1, inRun := false, lastByte := c,
            out := s.out ++ encodeDiff 128 :: slice bytes s.pendingIndex 128,
            bytesWritten := s.bytesWritten + (1 + 128),
            offset := recOffset pos0 s } := by
        simp [pbStep, hR, hbig]
      have hple : (slice bytes s.pendingIndex 128).length = 128 :=
        slice_length bytes s.pendingIndex 128 (by omega)
      rw [hstep]
      refine ⟨⟨?_, ?_, ?_, ?_, ?_, ?_, ?_, ?_, ?_, ?_⟩, rfl⟩
      · simp [winStart]
        omega
      · dsimp only
        omega
      · dsimp only
        omega
      · intro h
        simp at h
      · intro _
        dsimp only
        refine ⟨by omega, by omega, ?_⟩
        rw [hbpe]
        norm_num
        rw [hpe, slice_one bytes s.srcIndex c r' hdrop]
      · have hlitstep := decStep_lit (slice bytes s.pendingIndex 128)
          (by rw [hple]; omega) (by rw [hple])
        rw [hple] at hlitstep
        have hcomp := decStep_comp hdec hlitstep
        rw [← take_add_slice] at hcomp
        simpa [winStart] using hcomp
      · have hwfstep := chunksWF_lit_single (slice bytes s.pendingIndex 128)
          (by rw [hple]; omega) (by rw [hple])
        rw [hple] at hwfstep
        exact hwf.append hwfstep
      · simp [hcnt, hple]
      · exact recOffset_spec pos0 s hoffs hoffn
      · intro h
        exact absurd h (recOffset_ne_none pos0 s)
    · by_cases hceq : c = s.lastByte
      · by_cases hwrt : s.bytesPending + 1 - s.runIndex ≥ 3 ∨ s.runIndex = 0
        · by_cases hri : s.runIndex ≠ 0
          · -- worthwhile run: flush the literal prefix, enter run mode
            have hri1 : 1 ≤ s.runIndex := by omega
            have hstep : pbStep pos0 bytes s c =
                { srcIndex := s.srcIndex + 1, pendingIndex := s.pendingIndex,
                  bytesPending := s.bytesPending + 1 - s.runIndex,
                  runIndex := s.runIndex, inRun := true, lastByte := c,
                  out := s.out ++ encodeDiff s.runIndex ::
                    slice bytes s.pendingIndex s.runIndex,
                  bytesWritten := s.bytesWritten + (1 + s.runIndex),
                  offset := recOffset pos0 s } := by
              simp only [pbStep, hR]
              rw [if_neg (by simp), if_neg hbig, if_pos hceq, if_pos hwrt, if_pos hri]
            have hple : (slice bytes s.pendingIndex s.runIndex).length = s.runIndex :=
              slice_length bytes s.pendingIndex s.runIndex (by omega)
            rw [hstep]
            refine ⟨⟨?_, ?_, ?_, ?_, ?_, ?_, ?_, ?_, ?_, ?_⟩, rfl⟩
            · simp [winStart]
              omega
            · dsimp only
              omega
            · dsimp only
              omega
            · intro _
              dsimp only
              refine ⟨by omega, by omega, ?_⟩
              simp [winStart]
              have he : s.bytesPending + 1 - s.runIndex = (s.bytesPending - s.runIndex) + 1 := by
                omega
              rw [he, slice_snoc bytes (s.pendingIndex + s.runIndex)
                    (s.bytesPending - s.runIndex) c r' (by rw [show s.pendingIndex + s.runIndex
                      + (s.bytesPending - s.runIndex) = s.srcIndex by omega]; exact hdrop),
                  hcand, hceq, List.replicate_succ']
            · intro h
              simp at h
            · have hlitstep := decStep_lit (slice bytes s.pendingIndex s.runIndex)
                (by rw [hple]; omega) (by rw [hple]; omega)
              rw [hple] at hlitstep
              have hcomp := decStep_comp hdec hlitstep
              rw [← take_add_slice] at hcomp
              simpa [winStart] using hcomp
            · have hwfstep := chunksWF_lit_single (slice bytes s.pendingIndex s.runIndex)
                (by rw [hple]; omega) (by rw [hple]; omega)
              rw [hple] at hwfstep
              exact hwf.append hwfstep
            · simp [hcnt, hple]
              omega
            · exact recOffset_spec pos0 s hoffs hoffn
            · intro h
              exact absurd h (recOffset_ne_none pos0 s)
          · -- run starting at the window head: enter run mode, nothing to flush
            have hri0 : s.runIndex = 0 := by omega
            have hstep : pbStep pos0 bytes s c =
                { s with srcIndex := s.srcIndex + 1,
                         bytesPending := s.bytesPending + 1 - s.runIndex,
                         inRun := true, lastByte := c } := by
              simp only [pbStep, hR]
              rw [if_neg (by simp), if_neg hbig, if_pos hceq, if_pos hwrt, if_neg hri]
            rw [hstep]
            refine ⟨⟨?_, ?_, ?_, ?_, ?_, ?_, ?_, ?_, ?_, ?_⟩, rfl⟩
            · simp [winStart]
              omega
            · dsimp only
              omega
            · dsimp only
              omega
            · intro _
              dsimp only
              refine ⟨by omega, by omega, ?_⟩
              simp [winStart]
              rw [hri0] at hcand ⊢
              simp only [Nat.add_zero, Nat.sub_zero] at hcand ⊢
              rw [slice_snoc bytes s.pendingIndex s.bytesPending c r'
                    (by rw [show s.pendingIndex + s.bytesPending = s.srcIndex by omega]
                        exact hdrop),
                  hcand, hceq, List.replicate_succ']
            · intro h
              simp [hR] at h
            · simp only [winStart]
              simp [hri0]
              exact hdec
            · exact hwf
            · exact hcnt
            · exact hoffs
            · exact hoffn
        · -- matching byte but the candidate run is not yet worthwhile
          have hstep : pbStep pos0 bytes s c =
              { s with srcIndex := s.srcIndex + 1, bytesPending := s.bytesPending + 1,
                       lastByte := c } := by
            simp only [pbStep, hR]
            rw [if_neg (by simp), if_neg hbig, if_pos hceq, if_neg hwrt]
          rw [hstep]
          refine ⟨⟨?_, ?_, ?_, ?_, ?_, ?_, ?_, ?_, ?_, ?_⟩, rfl⟩
          · simp only [winStart]
            simp [hR]
            omega
          · dsimp only
            omega
          · dsimp only
            omega
          · intro h
            simp [hR] at h
          · intro _
            dsimp only
            refine ⟨by omega, by omega, ?_⟩
            have he : s.bytesPending + 1 - s.runIndex = (s.bytesPending - s.runIndex) + 1 := by
              omega
            rw [he, slice_snoc bytes (s.pendingIndex + s.runIndex)
                  (s.bytesPending - s.runIndex) c r' (by rw [show s.pendingIndex + s.runIndex
                    + (s.bytesPending - s.runIndex) = s.srcIndex by omega]; exact hdrop),
                hcand, hceq, List.replicate_succ']
          · simpa [winStart, hR] using hdec
          · exact hwf
          · exact hcnt
          · exact hoffs
          · exact hoffn
      · -- differing byte: remember that a run could start at this byte
        have hstep : pbStep pos0 bytes s c =
            { s with srcIndex := s.srcIndex + 1, bytesPending := s.bytesPending + 1,
                     runIndex := s.bytesPending + 1 - 1, lastByte := c } := by
          simp only [pbStep, hR]
          rw [if_neg (by simp), if_neg hbig, if_neg hceq]
        rw [hstep]
        refine ⟨⟨?_, ?_, ?_, ?_, ?_, ?_, ?_, ?_, ?_, ?_⟩, rfl⟩
        · simp only [winStart]
          simp [hR]
          omega
        · dsimp only
          omega
        · dsimp only
          omega
        · intro h
          simp [hR] at h
        · intro _
          dsimp only
          refine ⟨by omega, by omega, ?_⟩
          simp only [Nat.add_sub_cancel]
          rw [show s.bytesPending + 1 - s.bytesPending = 1 by omega,
              show s.pendingIndex + s.bytesPending = s.srcIndex by omega,
              slice_one bytes s.srcIndex c r' hdrop]
          rfl
        · simpa [winStart, hR] using hdec
        · exact hwf
        · exact hcnt
        · exact hoffs
        · exact hoffn

/-- Iterating the loop over any prefix of the remaining input preserves the
invariant and advances `src_index` by the number of bytes consumed. -/
theorem pbLoop_take_inv (pos0 : Nat) (bytes : List Nat) :
    ∀ (rest : List Nat) (s : PbState) (i : Nat), PbInv pos0 bytes s →
      bytes.drop s.srcIndex = rest → i ≤ rest.length →
      PbInv pos0 bytes (pbLoop pos0 bytes s (rest.take i)) ∧
        (pbLoop pos0 bytes s (rest.take i)).srcIndex = s.srcIndex + i := by
  intro rest
  induction rest with
  | nil =>
    intro s i hI hdrop hi
    have hi0 : i = 0 := by simpa using hi
    subst hi0
    exact ⟨hI, rfl⟩
  | cons c rest ih =>
    intro s i hI hdrop hi
    cases i with
    | zero => exact ⟨hI, rfl⟩
    | succ j =>
      simp only [List.take_succ_cons, pbLoop]
      obtain ⟨hI2, hsi⟩ := pbStep_inv pos0 bytes s c rest hI hdrop
      have hdrop1 : bytes.drop (pbStep pos0 bytes s c).srcIndex = rest := by
        rw [hsi]
        have h2 := congrArg (List.drop 1) hdrop
        rw [List.drop_drop] at h2
        simpa [Nat.add_comm] using h2
      obtain ⟨hI3, hsi3⟩ := ih (pbStep pos0 bytes s c) j hI2 hdrop1
        (by simpa using hi)
      exact ⟨hI3, by rw [hsi3, hsi]; omega⟩

/-- The invariant holds after the whole loop, with `src_index` at the end of
the input. -/
theorem pbLoop_inv_final (pos0 b0 : Nat) (rest : List Nat) :
    PbInv pos0 (b0 :: rest) (pbLoop pos0 (b0 :: rest) (pbInit b0) rest) ∧
      (pbLoop pos0 (b0 :: rest) (pbInit b0) rest).srcIndex = (b0 :: rest).length := by
  have h := pbLoop_take_inv pos0 (b0 :: rest) rest (pbInit b0) rest.length
    (pbInit_inv pos0 b0 rest) (by simp [pbInit]) le_rfl
  rw [List.take_length] at h
  refine ⟨h.1, ?_⟩
  rw [h.2]
  simp [pbInit]
  omega

theorem recOffset_eq (pos0 : Nat) (s : PbState)
    (hoffs : ∀ p, s.offset = some p → p = pos0) (hoffn : s.offset = none → s.out = []) :
    recOffset pos0 s = some pos0 := by
  cases ho : s.offset with
  | some q =>
    unfold recOffset
    rw [ho, hoffs q ho]
  | none =>
    unfold recOffset
    rw [ho]
    simp [hoffn ho]

/-- Flushing the remainder at end of input produces a stream that decodes to
the whole input, stays chunk-well-formed, keeps `bytes_written` equal to
the appended length, and records the start-of-call offset. -/
theorem pbFinish_spec (pos0 : Nat) (bytes : List Nat) (s : PbState)
    (hI : PbInv pos0 bytes s) (hend : s.srcIndex = bytes.length) :
    packbitsDecode (pbFinish pos0 bytes s).out = some bytes ∧
      ChunksWF (pbFinish pos0 bytes s).out ∧
      (pbFinish pos0 bytes s).bytesWritten = (pbFinish pos0 bytes s).out.length ∧
      (pbFinish pos0 bytes s).offset = some pos0 := by
  obtain ⟨hwin, hsrc, hbp, hrun, hlit, hdec, hwf, hcnt, hoffs, hoffn⟩ := hI
  cases hR : s.inRun with
  | true =>
    obtain ⟨hbp2, hbp128, hwrep⟩ := hrun hR
    have hws : winStart s = s.pendingIndex + s.runIndex := by simp [winStart, hR]
    rw [hws] at hwin hdec hwrep
    have hfin : pbFinish pos0 bytes s =
        { s with out := s.out ++ [encodeRept s.bytesPending, s.lastByte],
                 bytesWritten := s.bytesWritten + 2, offset := recOffset pos0 s } := by
      simp [pbFinish, hR]
    rw [hfin]
    refine ⟨?_, ?_, ?_, ?_⟩
    · dsimp only
      have hchunk : packbitsDecode [encodeRept s.bytesPending, s.lastByte]
          = some (List.replicate s.bytesPending s.lastByte) := by
        have h2 := decStep_run s.bytesPending s.lastByte hbp2 hbp128 [] [] rfl
        simpa using h2
      have h3 := hdec [encodeRept s.bytesPending, s.lastByte]
        (List.replicate s.bytesPending s.lastByte) hchunk
      rw [← hwrep, ← take_add_slice, hwin, hend] at h3
      simpa using h3
    · dsimp only
      exact hwf.append (chunksWF_run_single s.bytesPending s.lastByte hbp2 hbp128)
    · dsimp only
      simp [hcnt]
    · dsimp only
      exact recOffset_eq pos0 s hoffs hoffn
  | false =>
    obtain ⟨hbp128, hrib, hcand⟩ := hlit hR
    have hws : winStart s = s.pendingIndex := by simp [winStart, hR]
    rw [hws] at hwin hdec
    have hple : (slice bytes s.pendingIndex s.bytesPending).length = s.bytesPending :=
      slice_length bytes s.pendingIndex s.bytesPending (by omega)
    have hfin : pbFinish pos0 bytes s =
        { s with
            out := s.out ++
              encodeDiff s.bytesPending :: slice bytes s.pendingIndex s.bytesPending,
            bytesWritten := s.bytesWritten + (1 + s.bytesPending),
            offset := recOffset pos0 s } := by
      simp [pbFinish, hR]
    rw [hfin]
    have hlitstep := decStep_lit (slice bytes s.pendingIndex s.bytesPending)
      (by rw [hple]; omega) (by rw [hple]; omega)
    rw [hple] at hlitstep
    refine ⟨?_, ?_, ?_, ?_⟩
    · dsimp only
      have hchunk : packbitsDecode
          (encodeDiff s.bytesPending :: slice bytes s.pendingIndex s.bytesPending)
          = some (slice bytes s.pendingIndex s.bytesPending) := by
        have h2 := hlitstep [] [] rfl
        simpa using h2
      have h3 := hdec
        (encodeDiff s.bytesPending :: slice bytes s.pendingIndex s.bytesPending)
        (slice bytes s.pendingIndex s.bytesPending) hchunk
      rw [← take_add_slice, hwin, hend] at h3
      simpa using h3
    · dsimp only
      have hwfstep := chunksWF_lit_single (slice bytes s.pendingIndex s.bytesPending)
        (by rw [hple]; omega) (by rw [hple]; omega)
      rw [hple] at hwfstep
      exact hwf.append hwfstep
    · dsimp only
      simp [hcnt, hple]
      omega
    · dsimp only
      exact recOffset_eq pos0 s hoffs hoffn

/-- Master correctness theorem for `PackbitsCompressor::write_to` on a
non-empty input: the call succeeds, returns the sink position at the start
of the call and a stored byte count equal to the number of bytes appended,
and the appended chunk stream is well formed and decodes back to the
input. -/
theorem packbitsWriteTo_spec (pos0 b0 : Nat) (rest : List Nat) :
    ∃ r : WriteResult, packbitsWriteTo pos0 (b0 :: rest) = .ok r ∧
      r.offset = pos0 ∧ r.count = r.appended.length ∧
      packbitsDecode r.appended = some (b0 :: rest) ∧ ChunksWF r.appended := by
  obtain ⟨hI, hsi⟩ := pbLoop_inv_final pos0 b0 rest
  obtain ⟨hdecF, hwfF, hcntF, hoffF⟩ :=
    pbFinish_spec pos0 (b0 :: rest) (pbLoop pos0 (b0 :: rest) (pbInit b0) rest) hI hsi
  refine ⟨⟨pos0,
      (pbFinish pos0 (b0 :: rest) (pbLoop pos0 (b0 :: rest) (pbInit b0) rest)).bytesWritten,
      (pbFinish pos0 (b0 :: rest) (pbLoop pos0 (b0 :: rest) (pbInit b0) rest)).out⟩,
    ?_, rfl, hcntF, hdecF, hwfF⟩
  simp [packbitsWriteTo, hoffF]


/-! ## Supporting lemmas for the value codec -/

theorem serializeNat_length (w v : Nat) : (serializeNat w v).length = w := by
  simp [serializeNat]

theorem serializeInt_length (w : Nat) (v : Int) : (serializeInt w v).length = w := by
  simp [serializeInt, serializeNat_length]

theorem flatMap_const_length {α : Type} (f : α → List Nat) (n : Nat)
    (hf : ∀ x, (f x).length = n) (vs : List α) : (vs.flatMap f).length = n * vs.length := by
  induction vs with
  | nil => simp
  | cons x xs ih =>
    simp only [List.flatMap_cons, List.length_append, ih, hf x, List.length_cons]
    ring

theorem strValid_iff (s : List Nat) :
    strValid s = true ↔ (∀ b ∈ s, b < 128) ∧ ∀ b ∈ s, b ≠ 0 := by
  unfold strValid
  simp

/-! ## Claim theorems -/

/-- C1: for every byte sequence `b`, decoding the output that the
RunLengthPack (PackBits) strategy writes for `b` with the matching PackBits
reference decoder yields exactly `b`. -/
theorem packbits_roundtrip (pos0 : Nat) (b : List Nat) (r : WriteResult)
    (hbytes : ∀ x ∈ b, x < 256) (h : packbitsWriteTo pos0 b = .ok r) :
    packbitsDecode r.appended = some b := by
  cases b with
  | nil => cases h
  | cons b0 rest =>
    obtain ⟨r2, hok, _, _, hdec, _⟩ := packbitsWriteTo_spec pos0 b0 rest
    rw [hok] at h
    injection h with h2
    subst h2
    exact hdec

theorem packbits_roundtrip_witness :
    (∀ x ∈ ([1, 2, 2, 2, 3] : List Nat), x < 256) ∧
      packbitsWriteTo 0 [1, 2, 2, 2, 3] = .ok ⟨0, 6, [0, 1, 254, 2, 0, 3]⟩ ∧
      packbitsDecode (WriteResult.mk 0 6 [0, 1, 254, 2, 0, 3]).appended
        = some [1, 2, 2, 2, 3] :=
  ⟨by decide, by decide,
    packbits_roundtrip 0 [1, 2, 2, 2, 3] ⟨0, 6, [0, 1, 254, 2, 0, 3]⟩ (by decide) (by decide)⟩

/-- C2 counterexample: the Deflate strategy — a strategy other than None —
called with zero-length input succeeds (here with the zlib stream flate2
produces for empty input at the default level) instead of failing with an
"empty input" error: `deflate.rs` has no empty-input check. -/
theorem deflate_empty_input_accepted :
    deflateWriteTo (.ok [120, 156, 3, 0, 0, 0, 0, 1]) 8 []
      = .ok ⟨8, 8, [120, 156, 3, 0, 0, 0, 0, 1]⟩ := rfl

/-- C2 amended: on empty input the RunLengthPack strategy fails
(`CompressionError`) and the None strategy returns an empty payload with
`stored_byte_count = 0`, while the LZW and Deflate strategies perform no
empty-input check and simply return their underlying codec's outcome. -/
theorem empty_input_behavior :
    (∀ pos0, packbitsWriteTo pos0 [] = .error ()) ∧
    (∀ w pos0, noneWriteTo w pos0 [] = ⟨pos0, 0, []⟩) ∧
    (∀ buf pos0, lzwWriteTo (.ok buf) pos0 [] = .ok ⟨pos0, buf.length, buf⟩) ∧
    (∀ buf pos0, deflateWriteTo (.ok buf) pos0 [] = .ok ⟨pos0, buf.length, buf⟩) :=
  ⟨fun _ => rfl, fun _ _ => rfl, fun _ _ => rfl, fun _ _ => rfl⟩

/-- C3: `NoneCompressor::write_to` (`compression.rs` line 47) returns
`value.len()` — the element count of the `&[T::Inner]` strip — as the byte
count, so for a single-element 16-bit strip it reports 1 while 2 bytes are
appended to the sink, contradicting the trait's documented "byte count"
contract and the spec's invariant. -/
theorem none_count_is_element_count :
    noneWriteTo 2 0 [258] = ⟨0, 1, [2, 1]⟩ ∧
      (noneWriteTo 2 0 [258]).count ≠ (noneWriteTo 2 0 [258]).appended.length := by
  constructor
  · decide
  · decide

/-- C4: for every compression strategy and every non-empty input, the
returned `absolute_file_offset` equals the sink's write position `pos0`
before the first byte of this call's payload was written. -/
theorem write_offset_is_call_start :
    (∀ w pos0 v, (noneWriteTo w pos0 v).offset = pos0) ∧
    (∀ buf pos0 d r, lzwWriteTo buf pos0 d = .ok r → r.offset = pos0) ∧
    (∀ buf pos0 d r, deflateWriteTo buf pos0 d = .ok r → r.offset = pos0) ∧
    (∀ pos0 b r, b ≠ [] → packbitsWriteTo pos0 b = .ok r → r.offset = pos0) := by
  refine ⟨fun w pos0 v => rfl, ?_, ?_, ?_⟩
  · intro buf pos0 d r h
    cases buf with
    | error e => cases h
    | ok b =>
      injection h with h2
      subst h2
      rfl
  · intro buf pos0 d r h
    cases buf with
    | error e => cases h
    | ok b =>
      injection h with h2
      subst h2
      rfl
  · intro pos0 b r hne h
    cases b with
    | nil => exact absurd rfl hne
    | cons b0 rest =>
      obtain ⟨r2, hok, hoff, _, _, _⟩ := packbitsWriteTo_spec pos0 b0 rest
      rw [hok] at h
      injection h with h2
      subst h2
      exact hoff

theorem write_offset_is_call_start_witness :
    (noneWriteTo 1 7 [5]).offset = 7 ∧
      lzwWriteTo (.ok [9]) 4 [1] = .ok ⟨4, 1, [9]⟩ ∧
      (WriteResult.mk 4 1 [9]).offset = 4 ∧
      ([7] : List Nat) ≠ [] ∧ packbitsWriteTo 9 [7] = .ok ⟨9, 2, [0, 7]⟩ ∧
      (WriteResult.mk 9 2 [0, 7]).offset = 9 :=
  ⟨write_offset_is_call_start.1 1 7 [5], by decide,
    write_offset_is_call_start.2.1 (.ok [9]) 4 [1] ⟨4, 1, [9]⟩ (by decide), by decide,
    by decide,
    write_offset_is_call_start.2.2.2 9 [7] ⟨9, 2, [0, 7]⟩ (by decide) (by decide)⟩

/-- C5: every chunk stream emitted by the RunLengthPack strategy is well
formed — no literal chunk carries more than 128 bytes, every run chunk
encodes a run of 2..=128 bytes, no zero-length chunk is emitted — and an
input of 158 identical bytes splits into one 128-run chunk (`0x81`)
followed by a 30-run chunk (`0xE3`), never a single over-128 header. -/
theorem packbits_chunk_bounds :
    (∀ pos0 b r, packbitsWriteTo pos0 b = .ok r → ChunksWF r.appended) ∧
      packbitsWriteTo 0 (List.replicate 158 114) = .ok ⟨0, 4, [129, 114, 227, 114]⟩ := by
  constructor
  · intro pos0 b r h
    cases b with
    | nil => cases h
    | cons b0 rest =>
      obtain ⟨r2, hok, _, _, _, hwf⟩ := packbitsWriteTo_spec pos0 b0 rest
      rw [hok] at h
      injection h with h2
      subst h2
      exact hwf
  · decide

theorem packbits_chunk_bounds_witness :
    packbitsWriteTo 3 [9, 9, 9, 9] = .ok ⟨3, 2, [253, 9]⟩ ∧
      ChunksWF (WriteResult.mk 3 2 [253, 9]).appended :=
  ⟨by decide, packbits_chunk_bounds.1 3 [9, 9, 9, 9] ⟨3, 2, [253, 9]⟩ (by decide)⟩

/-- C6 counterexample: `TEST_DATA` is 61 bytes long, and encoding it with
the RunLengthPack strategy emits the single literal chunk with header byte
`0x3C` = 60, not `0x3F` = 63: the claimed output stream is not produced. -/
theorem packbits_test_data_header_is_3c :
    TEST_DATA.length = 61 ∧
      packbitsWriteTo 0 TEST_DATA = .ok ⟨0, 62, 60 :: TEST_DATA⟩ ∧
      packbitsWriteTo 0 TEST_DATA ≠ .ok ⟨0, 62, 63 :: TEST_DATA⟩ := by
  refine ⟨by decide, by decide, by decide⟩

/-- C6 amended: encoding the 61-byte ASCII text
"This is a string for checking various compression algorithms." with the
RunLengthPack strategy produces a single literal chunk whose header byte is
`0x3C` (= 60, the input length 61 minus one) followed by the text bytes
verbatim. -/
theorem packbits_test_data_encoding :
    packbitsWriteTo 0 TEST_DATA = .ok ⟨0, 62, 60 :: TEST_DATA⟩ := by
  decide

/-- C7: the offset policy conversion under the 32-bit variant fails with a
value-out-of-range condition exactly when the candidate exceeds `u32::MAX`
(in particular at `0x1_0000_0000`), under the 64-bit variant it always
succeeds, and in no case does it silently truncate: any successful
conversion returns the candidate unchanged. -/
theorem convert_offset_policy :
    (∀ c, convertOffset .bits32 c = none ↔ u32Max < c) ∧
      convertOffset .bits32 4294967296 = none ∧
      (∀ c, convertOffset .bits64 c = some c) ∧
      (∀ w c, convertOffset w c = none ∨ convertOffset w c = some c) := by
  refine ⟨fun c => ?_, by decide, fun c => rfl, fun w c => ?_⟩
  · unfold convertOffset
    by_cases h : c > u32Max
    · simp [h]
    · simp [h]
  · cases w with
    | bits32 =>
      unfold convertOffset
      by_cases h : c > u32Max
      · left
        simp [h]
      · right
        simp [h]
    | bits64 =>
      right
      rfl

/-- C8: encoding a string value succeeds iff it is ASCII and contains no
embedded NUL byte; on success the emitted bytes are the string's bytes
followed by exactly one terminating zero byte and the reported element
count is the character length + 1; otherwise encoding fails with the
invalid-string error, the codec's only failure mode. -/
theorem str_codec_spec (s : List Nat) :
    ((∃ out, strWrite s = .ok out) ↔ ((∀ b ∈ s, b < 128) ∧ ∀ b ∈ s, b ≠ 0)) ∧
      (strValid s = true → strWrite s = .ok (s ++ [0])) ∧
      (strValid s = false → strWrite s = .error ()) ∧
      strCount s = s.length + 1 := by
  refine ⟨?_, fun hv => by simp [strWrite, hv], fun hv => by simp [strWrite, hv], rfl⟩
  rw [← strValid_iff]
  constructor
  · intro ⟨out, hout⟩
    by_cases hv : strValid s = true
    · exact hv
    · rw [strWrite, if_neg hv] at hout
      cases hout
  · intro hv
    exact ⟨s ++ [0], by simp [strWrite, hv]⟩

theorem str_codec_spec_witness :
    strValid [72, 105] = true ∧ strWrite [72, 105] = .ok [72, 105, 0] :=
  ⟨by decide, (str_codec_spec [72, 105]).2.1 (by decide)⟩

/-- C9: for every supported native value and homogeneous array that passes
its validity check, the byte serialization has length exactly
`byte_width_per_element * element_count` (for ASCII strings the element
count already includes the terminating zero byte). -/
theorem serialization_length (v : TiffVal) (hv : v.valid) :
    v.serialize.length = v.byteLen * v.count := by
  cases v with
  | bytesV vs =>
    simp [TiffVal.serialize, TiffVal.byteLen, TiffVal.count]
  | sbytesV vs =>
    simpa [TiffVal.serialize, TiffVal.byteLen, TiffVal.count] using
      flatMap_const_length _ 1 (fun x => serializeInt_length 1 x) vs
  | shortsV vs =>
    simpa [TiffVal.serialize, TiffVal.byteLen, TiffVal.count] using
      flatMap_const_length _ 2 (fun x => serializeNat_length 2 x) vs
  | sshortsV vs =>
    simpa [TiffVal.serialize, TiffVal.byteLen, TiffVal.count] using
      flatMap_const_length _ 2 (fun x => serializeInt_length 2 x) vs
  | longsV vs =>
    simpa [TiffVal.serialize, TiffVal.byteLen, TiffVal.count] using
      flatMap_const_length _ 4 (fun x => serializeNat_length 4 x) vs
  | slongsV vs =>
    simpa [TiffVal.serialize, TiffVal.byteLen, TiffVal.count] using
      flatMap_const_length _ 4 (fun x => serializeInt_length 4 x) vs
  | long8sV vs =>
    simpa [TiffVal.serialize, TiffVal.byteLen, TiffVal.count] using
      flatMap_const_length _ 8 (fun x => serializeNat_length 8 x) vs
  | slong8sV vs =>
    simpa [TiffVal.serialize, TiffVal.byteLen, TiffVal.count] using
      flatMap_const_length _ 8 (fun x => serializeInt_length 8 x) vs
  | floatsV vs =>
    simpa [TiffVal.serialize, TiffVal.byteLen, TiffVal.count] using
      flatMap_const_length _ 4 (fun x => serializeNat_length 4 x) vs
  | doublesV vs =>
    simpa [TiffVal.serialize, TiffVal.byteLen, TiffVal.count] using
      flatMap_const_length _ 8 (fun x => serializeNat_length 8 x) vs
  | ifdsV vs =>
    simpa [TiffVal.serialize, TiffVal.byteLen, TiffVal.count] using
      flatMap_const_length _ 4 (fun x => serializeNat_length 4 x) vs
  | ifd8sV vs =>
    simpa [TiffVal.serialize, TiffVal.byteLen, TiffVal.count] using
      flatMap_const_length _ 8 (fun x => serializeNat_length 8 x) vs
  | rationalsV vs =>
    simpa [TiffVal.serialize, TiffVal.byteLen, TiffVal.count] using
      flatMap_const_length _ 8
        (fun p => by simp [serializeNat_length]) vs
  | srationalsV vs =>
    simpa [TiffVal.serialize, TiffVal.byteLen, TiffVal.count] using
      flatMap_const_length _ 8
        (fun p => by simp [serializeInt_length]) vs
  | asciiV s =>
    have hv2 : strValid s = true := hv
    simp [TiffVal.serialize, TiffVal.byteLen, TiffVal.count, strSerialize, strCount, hv2]

theorem serialization_length_witness :
    TiffVal.valid (TiffVal.rationalsV [(1, 2), (3, 4)]) ∧
      (TiffVal.rationalsV [(1, 2), (3, 4)]).serialize.length
        = (TiffVal.rationalsV [(1, 2), (3, 4)]).byteLen
          * (TiffVal.rationalsV [(1, 2), (3, 4)]).count :=
  ⟨trivial, serialization_length (TiffVal.rationalsV [(1, 2), (3, 4)]) trivial⟩

/-- C10: the single forward pass of the RunLengthPack encoder is total on
non-empty input: at every iteration boundary the pending window and the
candidate-run offset lie within the input (so every slice the flushes take
is in bounds), `bytes_pending` is at most 128 before the increment — hence
the `u8` counter never exceeds 129 and never overflows — and the
subtractions `src_count - 1`, `bytes_pending - 1` and
`bytes_pending - run_index` never underflow. -/
theorem packbits_pass_safety (pos0 b0 : Nat) (rest : List Nat) (i : Nat) (s : PbState)
    (hi : i ≤ rest.length) (hs : s = pbLoop pos0 (b0 :: rest) (pbInit b0) (rest.take i)) :
    1 ≤ s.bytesPending ∧
    s.bytesPending + 1 ≤ 129 ∧
    (s.inRun = false → s.runIndex < s.bytesPending) ∧
    s.srcIndex = i + 1 ∧
    (i < rest.length → s.srcIndex < (b0 :: rest).length) ∧
    s.pendingIndex + s.runIndex ≤ (b0 :: rest).length ∧
    s.pendingIndex + s.bytesPending ≤ (b0 :: rest).length ∧
    1 ≤ (b0 :: rest).length - i := by
  subst hs
  obtain ⟨hI, hsi⟩ := pbLoop_take_inv pos0 (b0 :: rest) rest (pbInit b0) i
    (pbInit_inv pos0 b0 rest) (by simp [pbInit]) hi
  obtain ⟨hwin, hsrc, hbp, hrun, hlit, _, _, _, _, _⟩ := hI
  have hsi2 : (pbLoop pos0 (b0 :: rest) (pbInit b0) (rest.take i)).srcIndex = 1 + i := hsi
  cases hR : (pbLoop pos0 (b0 :: rest) (pbInit b0) (rest.take i)).inRun with
  | true =>
    obtain ⟨h2, h128, _⟩ := hrun hR
    have hws : winStart (pbLoop pos0 (b0 :: rest) (pbInit b0) (rest.take i))
        = (pbLoop pos0 (b0 :: rest) (pbInit b0) (rest.take i)).pendingIndex
          + (pbLoop pos0 (b0 :: rest) (pbInit b0) (rest.take i)).runIndex := by
      simp [winStart, hR]
    rw [hws] at hwin
    simp only [List.length_cons] at hsrc ⊢
    refine ⟨hbp, by omega, ?_, by omega, by omega, by omega, by omega, by omega⟩
    intro h
    simp [hR] at h
  | false =>
    obtain ⟨h128, hrib, _⟩ := hlit hR
    have hws : winStart (pbLoop pos0 (b0 :: rest) (pbInit b0) (rest.take i))
        = (pbLoop pos0 (b0 :: rest) (pbInit b0) (rest.take i)).pendingIndex := by
      simp [winStart, hR]
    rw [hws] at hwin
    simp only [List.length_cons] at hsrc ⊢
    exact ⟨hbp, by omega, fun _ => hrib, by omega, by omega, by omega, by omega, by omega⟩

theorem packbits_pass_safety_witness :
    (2 ≤ ([2, 2] : List Nat).length) ∧
      1 ≤ (pbLoop 0 [1, 2, 2] (pbInit 1) ([2, 2].take 2)).bytesPending :=
  ⟨by decide, (packbits_pass_safety 0 1 [2, 2] 2 _ (by decide) rfl).1⟩

end Tiff
